import Mathlib

/-!
Verification development for the xUnit Test Extension's
Test Result Correlation & Source Reference Resolution Engine.

The source is TypeScript (`TestExplorerProvider.ts` and the extension main
file).  Strings are modelled as `List Char`; the JavaScript regular
expressions used by the code are modelled as deterministic scanners (for
each pattern of the source, backtracking never changes the outcome, so a
committed scanner is faithful); `vscode.workspace.findFiles` and
`fs.promises.readFile` are external collaborators and appear as function
parameters / `Option` inputs.  JavaScript `Map`s are association lists with
insert-or-replace-in-place semantics, matching `Map`'s key update and
insertion-order iteration.
-/

/-- Abbreviation: string literal to `List Char`. -/
def str (s : String) : List Char := s.toList

/-- JavaScript `[A-Z]`. -/
def isUpperAZ (c : Char) : Bool := 'A' ≤ c && c ≤ 'Z'

/-- JavaScript `[a-z]`. -/
def isLowerAZ (c : Char) : Bool := 'a' ≤ c && c ≤ 'z'

/-- JavaScript `[a-zA-Z]`. -/
def isAlphaC (c : Char) : Bool := isUpperAZ c || isLowerAZ c

/-- JavaScript `[0-9]`. -/
def isDigitC (c : Char) : Bool := '0' ≤ c && c ≤ '9'

/-- JavaScript `[a-zA-Z_]`: first character of an identifier. -/
def isIdStart (c : Char) : Bool := isAlphaC c || c = '_'

/-- JavaScript `[a-zA-Z0-9_]` (also `\w`): identifier character. -/
def isIdChar (c : Char) : Bool := isAlphaC c || isDigitC c || c = '_'

/-- JavaScript `\s` on the ASCII range (the source files are ASCII). -/
def isWsChar (c : Char) : Bool :=
  c = ' ' || c = '\t' || c = '\n' || c = '\r' || c = '\x0b' || c = '\x0c'

/-- Match a literal (the exact characters of `pat`) at the head of `l`,
returning the remainder. -/
def litPref : List Char → List Char → Option (List Char)
  | [], l => some l
  | _ :: _, [] => none
  | c :: cs, d :: ds => if c = d then litPref cs ds else none

/-- Does `needle` occur as a contiguous substring of `hay`
(JavaScript `String.prototype.includes`)? -/
def containsSub (needle : List Char) : List Char → Bool
  | [] => (litPref needle []).isSome
  | c :: rest => (litPref needle (c :: rest)).isSome || containsSub needle rest

/-- One pass of a JavaScript global regex (`regex.exec` in a `while` loop):
at each position try the committed matcher `m`; on a match, record the
capture and resume after the match; otherwise advance one character.
`fuel` bounds the recursion; `scanAll` supplies `l.length`, which is enough
because every matcher used here consumes at least one character. -/
def scanFuel (m : List Char → Option (α × List Char)) : Nat → List Char → List α
  | 0, _ => []
  | _ + 1, [] => []
  | fuel + 1, c :: rest =>
    match m (c :: rest) with
    | some (a, rem) => a :: scanFuel m fuel rem
    | none => scanFuel m fuel rest

/-- All matches of a global regex over `l`, in order. -/
def scanAll (m : List Char → Option (α × List Char)) (l : List Char) : List α :=
  scanFuel m l.length l

/-- First match of a non-global regex (`String.prototype.match`):
try the matcher at each position, left to right. -/
def scanFirst (m : List Char → Option α) : List Char → Option α
  | [] => none
  | c :: rest =>
    match m (c :: rest) with
    | some a => some a
    | none => scanFirst m rest

/-- JavaScript `Set.prototype.add`: append if not already present (insertion order kept). -/
def addSet [DecidableEq α] (s : List α) (x : α) : List α :=
  if x ∈ s then s else s ++ [x]

/-- Add every element of `l` to the set `s`, in order. -/
def insertAll [DecidableEq α] (s : List α) (l : List α) : List α :=
  l.foldl addSet s

/-!
Section: `findUsedVariablesInMethod` (TestExplorerProvider.ts)

Three global regexes over the method body:
usage `([a-zA-Z_][a-zA-Z0-9_]*)\s*\.`,
assignment `=\s*([a-zA-Z_][a-zA-Z0-9_]*)\s*\.`,
await `await\s+([a-zA-Z_][a-zA-Z0-9_]*)\s*\.`,
their captures united into one `Set`.
-/

/-- Committed matcher for `([a-zA-Z_][a-zA-Z0-9_]*)\s*\.`:
maximal identifier, optional whitespace, then a dot.  (Backtracking the
greedy identifier or the `\s*` never rescues a failed match, because an
identifier character is neither whitespace nor `.`, so the committed
scanner agrees with the regex engine.) -/
def try1 : List Char → Option (List Char × List Char)
  | [] => none
  | c :: rest =>
    if isIdStart c then
      match (rest.dropWhile isIdChar).dropWhile isWsChar with
      | d :: rem => if d = '.' then some (c :: rest.takeWhile isIdChar, rem) else none
      | [] => none
    else none

/-- Committed matcher for `=\s*([a-zA-Z_][a-zA-Z0-9_]*)\s*\.`:
a `=`, optional whitespace, then exactly the tail of `try1`. -/
def try2 : List Char → Option (List Char × List Char)
  | [] => none
  | c :: t => if c = '=' then try1 (t.dropWhile isWsChar) else none

/-- Committed matcher for `await\s+([a-zA-Z_][a-zA-Z0-9_]*)\s*\.`:
the literal `await`, mandatory whitespace, then the tail of `try1`. -/
def try3 (l : List Char) : Option (List Char × List Char) :=
  match litPref (str "await") l with
  | some (c :: r2) => if isWsChar c then try1 (r2.dropWhile isWsChar) else none
  | _ => none

/-- Source `findUsedVariablesInMethod`: the deduplicated union (a JavaScript `Set`,
insertion order) of the captures of the three patterns, usage first, then
assignment, then await. -/
def findUsedVariablesInMethod (methodBody : List Char) : List (List Char) :=
  insertAll (insertAll (insertAll [] (scanAll try1 methodBody))
    (scanAll try2 methodBody)) (scanAll try3 methodBody)

/-!
Section: JavaScript string helpers
-/

/-- JavaScript `a || b` on possibly-missing strings: `undefined` is `none`,
and the empty string is falsy. -/
def jsOr (a b : Option (List Char)) : Option (List Char) :=
  match a with
  | some s => if s = [] then b else some s
  | none => b

/-- Is the value falsy (`undefined` or the empty string)? -/
def optFalsy (o : Option (List Char)) : Prop := o = none ∨ o = some []

instance (o : Option (List Char)) : Decidable (optFalsy o) := by
  unfold optFalsy; infer_instance

/-- JavaScript `String.prototype.split` with a single-character separator:
always returns one more part than there are separators (parts may be empty). -/
def splitSep (sep : Char) : List Char → List (List Char)
  | [] => [[]]
  | c :: rest =>
    if c = sep then [] :: splitSep sep rest
    else
      match splitSep sep rest with
      | p :: ps => (c :: p) :: ps
      | [] => [[c]]

/-- JavaScript `String.prototype.trim` (ASCII whitespace). -/
def trimWs (l : List Char) : List Char :=
  ((l.dropWhile isWsChar).reverse.dropWhile isWsChar).reverse

/-!
Section: JavaScript `Map` as an association list

`mapSet` replaces the value in place when the key exists (preserving the
entry's position, as `Map.prototype.set` does) and appends otherwise;
`mapGet` finds the entry; iteration order is list order.
-/

/-- JavaScript `Map.prototype.get`. -/
def mapGet [DecidableEq κ] (k : κ) : List (κ × ν) → Option ν
  | [] => none
  | (k', v') :: rest => if k' = k then some v' else mapGet k rest

/-- JavaScript `Map.prototype.set`. -/
def mapSet [DecidableEq κ] (k : κ) (v : ν) : List (κ × ν) → List (κ × ν)
  | [] => [(k, v)]
  | (k', v') :: rest => if k' = k then (k, v) :: rest else (k', v') :: mapSet k v rest

/-- The value of the last pair in `l` whose key is `k`
(what a `Map` built from `l` by successive `set`s would hold at `k`). -/
def lastAssoc [DecidableEq κ] (k : κ) : List (κ × ν) → Option ν
  | [] => none
  | p :: ps =>
    match lastAssoc k ps with
    | some v => some v
    | none => if p.1 = k then some p.2 else none

/-!
Section: TRX ingestion (`parseResultsAndUpdateDecorations`, extension main file)

The parsed XML is modelled structurally: a `UnitTestResultEntry` for each
`UnitTestResult` element (its `testId`, `outcome`, `testName` attributes and
the optional `Output[0].ErrorInfo[0].Message[0]` / `StackTrace[0]` /
`StdOut[0]` texts), a `UnitTest` for each `TestDefinitions[0].UnitTest`
element (its `id` and `name` attributes and the nested `TestMethod[0]`'s
`className`, `testName`, `methodName` attributes).  A missing attribute is
`none`.  `vscode.workspace.findFiles` for the class-file glob is the
parameter `resolve` (at most one result was requested). -/

structure UnitTestResultEntry where
  testId : List Char
  outcome : List Char
  testName : Option (List Char)
  errorInfoMessage : Option (List Char)
  errorInfoStackTrace : Option (List Char)
  stdOut : Option (List Char)
deriving DecidableEq

structure UnitTest where
  id : List Char
  name : Option (List Char)
  className : List Char
  tmTestName : Option (List Char)
  tmMethodName : Option (List Char)
deriving DecidableEq

/-- Outcome of a single executed test method
(the source's `outcome` is kept verbatim: the `as 'Passed' | 'Failed'`
type assertion does not change the runtime value). -/
structure TestMethodResult where
  methodName : List Char
  outcome : List Char
  errorMessage : Option (List Char)
  referencedFiles : List (List Char)
deriving DecidableEq

inductive TestState where
  | pass
  | fail
deriving DecidableEq

structure TestCounts where
  passed : Nat
  failed : Nat
deriving DecidableEq

structure TestFileResult where
  filePath : List Char
  state : TestState
  counts : TestCounts
  methods : List TestMethodResult
deriving DecidableEq

/-- The freshly initialised per-file record
(`state: 'pass', counts: {passed: 0, failed: 0}, methods: []`). -/
def freshResult (filePath : List Char) : TestFileResult :=
  ⟨filePath, TestState.pass, ⟨0, 0⟩, []⟩

/-- The last `.`-separated segment if the name is qualified
(`methodName.split('.')` then take the final part). -/
def finalizeName (m : List Char) : List Char :=
  if m.contains '.' then (splitSep '.' m).getLastD [] else m

/-- The method-name cleanup step applied to the chosen raw name. -/
def cleanupName (o : Option (List Char)) : Option (List Char) :=
  Option.map finalizeName o

/-- Method-name extraction:
`testResult.$.testName || testDef.TestMethod[0].$.testName || testDef.$.name
|| testDef.TestMethod[0].$.methodName`, then the namespace-prefix cleanup.
(The source's following `if (!methodName && testResult.$.testName)` block is
unreachable: whenever `testResult.$.testName` is truthy, so is the chain.) -/
def extractMethodName (e : UnitTestResultEntry) (d : UnitTest) : Option (List Char) :=
  cleanupName (jsOr e.testName (jsOr d.tmTestName (jsOr d.name d.tmMethodName)))

/-- Error-message extraction for a failed test: structured message, then
stack trace, then captured stdout, then the synthesized default. -/
def errMsgOf (e : UnitTestResultEntry) (methodName : List Char) : List Char :=
  (jsOr e.errorInfoMessage (jsOr e.errorInfoStackTrace (jsOr e.stdOut none))).getD
    (str "Test " ++ methodName ++ str " failed")

/-- Source `testDef.TestMethod[0].$.className.split(',')[0]` then `.split('.').pop()`:
the unqualified test class name whose file the ingestion looks for. -/
def testClassNameOf (d : UnitTest) : List Char :=
  (splitSep '.' ((splitSep ',' d.className).headD [])).getLastD []

/-- One loop iteration's skip-chain, up to the point where the record is
updated: `continue` becomes `none`.  On success it yields the resolved file
path and the `TestMethodResult` to append. -/
def entryTarget (defs : List UnitTest) (resolve : List Char → Option (List Char))
    (e : UnitTestResultEntry) : Option (List Char × TestMethodResult) :=
  match lastAssoc e.testId (defs.map fun d => (d.id, d)) with
  | none => none
  | some d =>
    match extractMethodName e d with
    | none => none
    | some m =>
      if m = [] then none
      else if testClassNameOf d = [] then none
      else
        match resolve (testClassNameOf d) with
        | none => none
        | some filePath =>
          some (filePath,
            ⟨m, e.outcome,
              if e.outcome = str "Failed" then some (errMsgOf e m) else none, []⟩)

/-- Append a method result to a file record and update counts and state
(`state` is set to `fail` on a failed outcome and otherwise left alone). -/
def applyMethod (fr : TestFileResult) (mr : TestMethodResult) : TestFileResult :=
  let fr1 := { fr with methods := fr.methods ++ [mr] }
  if mr.outcome = str "Failed" then
    { fr1 with state := TestState.fail,
               counts := ⟨fr1.counts.passed, fr1.counts.failed + 1⟩ }
  else if mr.outcome = str "Passed" then
    { fr1 with counts := ⟨fr1.counts.passed + 1, fr1.counts.failed⟩ }
  else fr1

/-- Process one `UnitTestResult` entry against the store. -/
def processEntry (defs : List UnitTest) (resolve : List Char → Option (List Char))
    (store : List (List Char × TestFileResult)) (e : UnitTestResultEntry) :
    List (List Char × TestFileResult) :=
  match entryTarget defs resolve e with
  | none => store
  | some (filePath, mr) =>
    mapSet filePath
      (applyMethod ((mapGet filePath store).getD (freshResult filePath)) mr) store

/-- The whole per-entry loop, building `fileTestResults` from scratch. -/
def ingestEntries (entries : List UnitTestResultEntry) (defs : List UnitTest)
    (resolve : List Char → Option (List Char)) :
    List (List Char × TestFileResult) :=
  entries.foldl (processEntry defs resolve) []

/-- The parsed TRX document as far as ingestion inspects it:
`none` models a missing `Results[0].UnitTestResult` /
`TestDefinitions[0].UnitTest` path (an empty array is present, hence
truthy, hence `some []`). -/
structure TrxReport where
  unitTestResults : Option (List UnitTestResultEntry)
  testDefinitions : Option (List UnitTest)

/-- Source `parseResultsAndUpdateDecorations`, as a transformer of the provider's
result store: if either required section is missing, a warning is logged and
the function returns before touching the store; otherwise
`updateTestMethodResults` clears the store and repopulates it with the
freshly built map. -/
def parseResultsAndUpdateDecorations (trx : TrxReport)
    (resolve : List Char → Option (List Char))
    (prior : List (List Char × TestFileResult)) :
    List (List Char × TestFileResult) :=
  match trx.unitTestResults, trx.testDefinitions with
  | some entries, some defs => ingestEntries entries defs resolve
  | _, _ => prior

/-!
Section: `analyzeTestClassDependencies` (TestExplorerProvider.ts)

Regex building blocks.  Each JavaScript pattern used here is deterministic
in the sense that backtracking an optional group or a greedy repetition
never turns a failure into a success (the section comments on each matcher
note why), so committed scanners are faithful.
-/

/-- Pattern `[a-zA-Z_][a-zA-Z0-9_]*`: one maximal identifier.  (Shortening the
greedy tail never helps: in every use the identifier is followed by a
non-identifier requirement.) -/
def matchIdent : List Char → Option (List Char × List Char)
  | [] => none
  | c :: rest =>
    if isIdStart c then some (c :: rest.takeWhile isIdChar, rest.dropWhile isIdChar)
    else none

/-- Pattern `[A-Z][a-zA-Z]*(?:<[^>]+>)?`: a PascalCase type name with an optional
generic-argument bracket.  The optional group is taken exactly when a
`<`…`>` with non-empty inside follows the letters; skipping it instead
would leave the scan at `<`, where the `\s+` that always follows this
pattern fails, so the committed choice is faithful. -/
def matchType : List Char → Option (List Char × List Char)
  | [] => none
  | c :: rest =>
    if isUpperAZ c then
      let ls := rest.takeWhile isAlphaC
      let r2 := rest.dropWhile isAlphaC
      match r2 with
      | '<' :: r3 =>
        match r3.takeWhile (fun d => d ≠ '>'), r3.dropWhile (fun d => d ≠ '>') with
        | inner@(_ :: _), '>' :: r4 =>
          some (c :: ls ++ '<' :: inner ++ ['>'], r4)
        | _, _ => some (c :: ls, r2)
      | _ => some (c :: ls, r2)
    else none

/-- An optional keyword followed by mandatory whitespace, e.g.
`(?:readonly\s+)?`: consumed when present.  (If the group matches but the
rest of the pattern later fails, the regex engine would retry without it;
the retry always fails too, because the following type pattern requires an
upper-case letter and the keyword starts lower-case, so committing is
faithful.) -/
def optKeyword (kw : List Char) (l : List Char) : List Char :=
  match litPref kw l with
  | some r => if (r.takeWhile isWsChar) = [] then l else r.dropWhile isWsChar
  | none => l

/-- The shared tail `TYPE\s+ID\s*;` of the three field patterns:
captures `(type, fieldName)`. -/
def tryTypeIdSemi (l : List Char) : Option ((List Char × List Char) × List Char) :=
  match matchType l with
  | none => none
  | some (ty, r1) =>
    if (r1.takeWhile isWsChar) = [] then none
    else
      match matchIdent (r1.dropWhile isWsChar) with
      | none => none
      | some (fieldName, r3) =>
        match r3.dropWhile isWsChar with
        | ';' :: rem => some ((ty, fieldName), rem)
        | _ => none

/-- Field pattern 1:
`private\s+(?:readonly\s+)?([A-Z][a-zA-Z]*(?:<[^>]+>)?)\s+([a-zA-Z_][a-zA-Z0-9_]*)\s*;`. -/
def tryField1 (l : List Char) : Option ((List Char × List Char) × List Char) :=
  match litPref (str "private") l with
  | none => none
  | some r1 =>
    if (r1.takeWhile isWsChar) = [] then none
    else tryTypeIdSemi (optKeyword (str "readonly") (r1.dropWhile isWsChar))

/-- Field pattern 2:
`private\s+([A-Z][a-zA-Z]*(?:<[^>]+>)?)\s+([a-zA-Z_][a-zA-Z0-9_]*)\s*;`. -/
def tryField2 (l : List Char) : Option ((List Char × List Char) × List Char) :=
  match litPref (str "private") l with
  | none => none
  | some r1 =>
    if (r1.takeWhile isWsChar) = [] then none
    else tryTypeIdSemi (r1.dropWhile isWsChar)

/-- Field pattern 3:
`(?:private\s+)?(?:readonly\s+)?([A-Z][a-zA-Z]*(?:<[^>]+>)?)\s+([a-zA-Z_][a-zA-Z0-9_]*)\s*;`. -/
def tryField3 (l : List Char) : Option ((List Char × List Char) × List Char) :=
  tryTypeIdSemi (optKeyword (str "readonly") (optKeyword (str "private") l))

/-- Mock pattern:
`Mock<([A-Z][a-zA-Z]*(?:<[^>]+>)?)>\s+([a-zA-Z_][a-zA-Z0-9_]*)`,
capturing `(type, mockName)`. -/
def tryMock (l : List Char) : Option ((List Char × List Char) × List Char) :=
  match litPref (str "Mock<") l with
  | none => none
  | some r1 =>
    match matchType r1 with
    | none => none
    | some (ty, r2) =>
      match r2 with
      | '>' :: r3 =>
        if (r3.takeWhile isWsChar) = [] then none
        else
          match matchIdent (r3.dropWhile isWsChar) with
          | none => none
          | some (mockName, r5) => some ((ty, mockName), r5)
      | _ => none

/-- Instantiation pattern:
`([a-zA-Z_][a-zA-Z0-9_]*)\s*=\s*new\s+([A-Z][a-zA-Z]*(?:<[^>]+>)?)\s*\(`,
capturing `(fieldName, type)`. -/
def tryInst (l : List Char) : Option ((List Char × List Char) × List Char) :=
  match matchIdent l with
  | none => none
  | some (fieldName, r1) =>
    match r1.dropWhile isWsChar with
    | '=' :: r3 =>
      match litPref (str "new") (r3.dropWhile isWsChar) with
      | none => none
      | some r4 =>
        if (r4.takeWhile isWsChar) = [] then none
        else
          match matchType (r4.dropWhile isWsChar) with
          | none => none
          | some (ty, r6) =>
            match r6.dropWhile isWsChar with
            | '(' :: rem => some ((fieldName, ty), rem)
            | _ => none
    | _ => none

/-- Constructor pattern (non-global): `public\s+\w+\s*\(([^)]*)\)`,
capturing the parameter-list text. -/
def tryCtor (l : List Char) : Option (List Char) :=
  match litPref (str "public") l with
  | none => none
  | some r1 =>
    if (r1.takeWhile isWsChar) = [] then none
    else
      match r1.dropWhile isWsChar with
      | c2 :: r2 =>
        if isIdChar c2 then
          match (r2.dropWhile isIdChar).dropWhile isWsChar with
          | '(' :: r5 =>
            match r5.dropWhile (fun d => d ≠ ')') with
            | ')' :: _ => some (r5.takeWhile (fun d => d ≠ ')'))
            | _ => none
          | _ => none
        else none
      | [] => none

/-- Per-parameter pattern (non-global, unanchored):
`([A-Z][a-zA-Z]*(?:<[^>]+>)?)\s+([a-zA-Z_][a-zA-Z0-9_]*)`. -/
def tryParamPair (l : List Char) : Option (List Char × List Char) :=
  match matchType l with
  | none => none
  | some (ty, r1) =>
    if (r1.takeWhile isWsChar) = [] then none
    else
      match matchIdent (r1.dropWhile isWsChar) with
      | none => none
      | some (paramName, _) => some (ty, paramName)

/-- Source `mockName.replace(/^_mock/, '_').replace(/^mock/, '')`: when the first
replacement fires, the result starts with `_`, so the second can never fire
on it; hence one committed case split is faithful. -/
def jsDeriveObjectName (mockName : List Char) : List Char :=
  match litPref (str "_mock") mockName with
  | some rest => '_' :: rest
  | none =>
    match litPref (str "mock") mockName with
    | some rest => rest
    | none => mockName

/-- The analyzer's result: the three symbol tables. -/
structure ClassDeps where
  fieldTypes : List (List Char × List Char)
  mockTypes : List (List Char × List Char)
  constructorParams : List (List Char × List Char)
deriving DecidableEq

/-- The mock loop: for each `(type, mockName)` match, in order, set
`mockTypes[mockName] = type` and `fieldTypes[derivedObjectName] = type`. -/
def mockLoop (pairs : List (List Char × List Char))
    (ftmt : List (List Char × List Char) × List (List Char × List Char)) :
    List (List Char × List Char) × List (List Char × List Char) :=
  pairs.foldl
    (fun ftmt p => (mapSet (jsDeriveObjectName p.2) p.1 ftmt.1, mapSet p.2 p.1 ftmt.2))
    ftmt

/-- Source `analyzeTestClassDependencies`: field patterns (first match for an
identifier wins across the three passes), then mocks (with the derived
unwrapped field name), then the first public constructor's parameters, then
direct instantiations (plain overwrite). -/
def analyzeTestClassDependencies (fileContent : List Char) : ClassDeps :=
  let fieldMatches :=
    scanAll tryField1 fileContent ++ scanAll tryField2 fileContent ++
      scanAll tryField3 fileContent
  let ft0 := fieldMatches.foldl
    (fun m p => if (mapGet p.2 m).isSome then m else mapSet p.2 p.1 m) []
  let mockPairs := scanAll tryMock fileContent
  let ftmt := mockLoop mockPairs (ft0, [])
  let constructorParams :=
    match scanFirst tryCtor fileContent with
    | some inner =>
      if trimWs inner = [] then []
      else
        (splitSep ',' inner).foldl
          (fun m param =>
            match scanFirst tryParamPair (trimWs param) with
            | some (ty, paramName) => mapSet paramName ty m
            | none => m) []
    | none => []
  let instPairs := scanAll tryInst fileContent
  let ft2 := instPairs.foldl (fun m p => mapSet p.1 p.2 m) ftmt.1
  ⟨ft2, ftmt.2, constructorParams⟩

/-!
Section: `analyzeTestMethodReferences` and its helpers (TestExplorerProvider.ts)

`vscode.workspace.findFiles(pattern, '**/node_modules/**')` is the function
parameter `fs` from glob pattern to result paths; `fs.promises.readFile` is
the `Option (List Char)` input (`none` = the read threw).
-/

/-- JavaScript `match[0]`: the text of the whole match, given the original input and
the remainder after the match. -/
def matchedSpan (l rem : List Char) : List Char :=
  l.take (l.length - rem.length)

/-- Remainder after the first occurrence of the literal `pat`
(a lazy `[\s\S]*?` followed by the literal). -/
def skipToLit (pat : List Char) : List Char → Option (List Char)
  | [] => litPref pat []
  | c :: rest =>
    match litPref pat (c :: rest) with
    | some rem => some rem
    | none => skipToLit pat rest

/-- The multiline-`m` tail `([\s\S]*?)^\s*}` of both method patterns: scan
forward for the first line start (a position right after `'\n'`; `prev` is
the character before the scan position, initially the `{`) where `\s*`
(which may cross line breaks) reaches a `}`; the remainder after that `}`
is returned.  The `\s*}` step is deterministic (whitespace is never `}`),
and a failure is monotone in the start position, so later lazy expansions
of the enclosing quantifiers can never rescue a failed search — the
committed scan is faithful. -/
def scanBodyEnd : Char → List Char → Option (List Char)
  | _, [] => none
  | prev, c :: rest =>
    if prev = '\n' then
      match (c :: rest).dropWhile isWsChar with
      | '}' :: rem => some rem
      | _ => scanBodyEnd c rest
    else scanBodyEnd c rest

/-- The optional `(public|private|internal)?` group.  The alternatives are
pairwise prefix-incompatible, and retrying with the empty alternative
after a later failure also fails (`\s*` consumes nothing and `void`/`Task`
cannot match at the modifier's lower-case first letter), so committing to
the matching alternative is faithful. -/
def optMods (l : List Char) : List Char :=
  match litPref (str "public") l with
  | some r => r
  | none =>
    match litPref (str "private") l with
    | some r => r
    | none => (litPref (str "internal") l).getD l

/-- Method pattern 1 (flag `m`):
`(public|private|internal)?\s*(async\s+)?(void|Task)\s+NAME\s*\([^)]*\)\s*{([\s\S]*?)^\s*}`
where `NAME` is the regex-escaped method name; yields `match[0]`. -/
def tryMethodA (name : List Char) (l : List Char) : Option (List Char) :=
  let r3 := optKeyword (str "async") ((optMods l).dropWhile isWsChar)
  match (litPref (str "void") r3).orElse (fun _ => litPref (str "Task") r3) with
  | none => none
  | some r4 =>
    if (r4.takeWhile isWsChar) = [] then none
    else
      match litPref name (r4.dropWhile isWsChar) with
      | none => none
      | some r6 =>
        match r6.dropWhile isWsChar with
        | '(' :: r8 =>
          match r8.dropWhile (fun d => d ≠ ')') with
          | ')' :: r10 =>
            match r10.dropWhile isWsChar with
            | '{' :: r12 =>
              match scanBodyEnd '{' r12 with
              | some rem => some (matchedSpan l rem)
              | none => none
            | _ => none
          | _ => none
        | _ => none

/-- Method pattern 2 (flag `m`):
`\[(?:Fact|Theory)[\s\S]*?NAME[\s\S]*?{([\s\S]*?)^\s*}`; yields `match[0]`.
The two lazy `[\s\S]*?` steps take the earliest occurrence; expanding them
further can never rescue a failed body-end search (failure of
`scanBodyEnd` is monotone in its start position), so the committed
earliest-occurrence scan is faithful. -/
def tryMethodB (name : List Char) (l : List Char) : Option (List Char) :=
  match l with
  | '[' :: r1 =>
    match (litPref (str "Fact") r1).orElse (fun _ => litPref (str "Theory") r1) with
    | none => none
    | some r2 =>
      match skipToLit name r2 with
      | none => none
      | some r3 =>
        match skipToLit ['{'] r3 with
        | none => none
        | some r4 =>
          match scanBodyEnd '{' r4 with
          | some rem => some (matchedSpan l rem)
          | none => none
  | _ => none

/-- The method-body search loop: the first pattern that matches anywhere
in the file wins; its `match[0]` is the method body text. -/
def findMethodBody (name fileContent : List Char) : Option (List Char) :=
  match scanFirst (tryMethodA name) fileContent with
  | some body => some body
  | none => scanFirst (tryMethodB name) fileContent

/-- Source `typeName.replace(/<.*>/, '')`: remove from the first `<` through the
last `>` (the `.*` is greedy), if both exist; type names are single-line
here so the no-newline restriction of `.` is moot. -/
def stripGenerics (l : List Char) : List Char :=
  let pre := l.takeWhile (fun c => c ≠ '<')
  let rest := l.dropWhile (fun c => c ≠ '<')
  if rest.contains '>' then pre ++ (rest.reverse.takeWhile (fun c => c ≠ '>')).reverse
  else l

/-- The up-to-two file names searched for a type: the type name itself and
its interface-prefix-stripped form (`I` followed by a capital), both with
generic arguments removed, each with the `.cs` extension. -/
def possibleFileNames (typeName : List Char) : List (List Char) :=
  let baseTypeName :=
    match typeName with
    | 'I' :: c :: rest => if isUpperAZ c then c :: rest else typeName
    | _ => typeName
  [stripGenerics typeName ++ str ".cs", stripGenerics baseTypeName ++ str ".cs"]

/-- One iteration of the shared accept-loop of `findFilesForType` and
`fallbackFileSearch`: keep a found path unless it contains a
test-indicating substring, lies under a build-output directory, or is
already collected. -/
def acceptFile (acc : List (List Char)) (f : List Char) : List (List Char) :=
  let isTestFile := containsSub (str "Tests") f || containsSub (str "Test") f
  let isBinObj := containsSub (str "/bin/") f || containsSub (str "/obj/") f
  let alreadyAdded := decide (f ∈ acc)
  if !isTestFile && !isBinObj && !alreadyAdded then acc ++ [f] else acc

/-- The accept-loop over one search's results. -/
def addFiles (files : List (List Char)) (referencedFiles : List (List Char)) :
    List (List Char) :=
  files.foldl acceptFile referencedFiles

/-- Source `findFilesForType`: search `**/<fileName>` for each candidate file name
and accumulate accepted paths. -/
def findFilesForType (fs : List Char → List (List Char)) (typeName : List Char)
    (referencedFiles : List (List Char)) : List (List Char) :=
  (possibleFileNames typeName).foldl
    (fun acc fileName => addFiles (fs (str "**/" ++ fileName)) acc) referencedFiles

/-- Source `methodName.replace(/([A-Z])/g, ' $1')`: a space inserted before every
capital letter. -/
def expandCaps (l : List Char) : List Char :=
  l.foldr (fun c acc => if isUpperAZ c then ' ' :: c :: acc else c :: acc) []

/-- JavaScript `split(/\s+|_/)`, fuelled (the fuel only bounds recursion:
every step consumes at least one character, so `splitWsUnderscore` passes
enough): separators are maximal whitespace runs or single underscores;
empty parts between adjacent separators are kept. -/
def splitWsFuel : Nat → List Char → List (List Char)
  | 0, _ => [[]]
  | _ + 1, [] => [[]]
  | fuel + 1, c :: rest =>
    if c = '_' then [] :: splitWsFuel fuel rest
    else if isWsChar c then [] :: splitWsFuel fuel (rest.dropWhile isWsChar)
    else
      match splitWsFuel fuel rest with
      | p :: ps => (c :: p) :: ps
      | [] => [[c]]

/-- JavaScript `split(/\s+|_/)`. -/
def splitWsUnderscore (l : List Char) : List (List Char) :=
  splitWsFuel l.length l

/-- The fallback stop-word list. -/
def stopWords : List (List Char) :=
  [str "Test", str "Should", str "When", str "Then", str "Given", str "Async"]

/-- The fallback word extraction: split the method name at capital-letter
boundaries and underscores, keep words longer than three characters that
are not stop words. -/
def methodWords (methodName : List Char) : List (List Char) :=
  (splitWsUnderscore (trimWs (expandCaps methodName))).filter
    (fun w => decide (3 < w.length) && !(stopWords.contains w))

/-- Source `fallbackFileSearch`: substring filename search `**/*<word>*.cs` for
each fallback word, accumulating through the shared accept-loop. -/
def fallbackFileSearch (fs : List Char → List (List Char)) (methodName : List Char)
    (referencedFiles : List (List Char)) : List (List Char) :=
  (methodWords methodName).foldl
    (fun acc word => addFiles (fs (str "**/*" ++ word ++ str "*.cs")) acc)
    referencedFiles

/-- The candidate-type computation inside `analyzeTestMethodReferences`:
map each used variable through `fieldTypes.get(v) || mockTypes.get(v)`,
then add every type in `mockTypes`' values unconditionally. -/
def referencedTypesOf (methodBody : List Char) (deps : ClassDeps) :
    List (List Char) :=
  let usedVariables := findUsedVariablesInMethod methodBody
  let s1 := usedVariables.foldl
    (fun s v =>
      match jsOr (mapGet v deps.fieldTypes) (jsOr (mapGet v deps.mockTypes) none) with
      | some ty => addSet s ty
      | none => s) []
  (deps.mockTypes.map Prod.snd).foldl addSet s1

/-- Source `analyzeTestMethodReferences`: read the file (`none` = the read threw
and the surrounding `catch` returns `[]`), analyze the class, locate the
method body (no match = `[]`), resolve candidate types to files, and run
the fallback search exactly when the type-based pass found nothing. -/
def analyzeTestMethodReferences (fs : List Char → List (List Char))
    (methodName : List Char) (fileRead : Option (List Char)) : List (List Char) :=
  match fileRead with
  | none => []
  | some testFileContent =>
    let classAnalysis := analyzeTestClassDependencies testFileContent
    match findMethodBody methodName testFileContent with
    | none => []
    | some methodBody =>
      let referencedTypes := referencedTypesOf methodBody classAnalysis
      let referencedFiles :=
        referencedTypes.foldl (fun acc ty => findFilesForType fs ty acc) []
      if referencedFiles.isEmpty then fallbackFileSearch fs methodName referencedFiles
      else referencedFiles

/-!
Section: Vocabulary for the claim statements
-/

/-- Did the outcome string count toward either counter? -/
def isPFOutcome (o : List Char) : Bool :=
  decide (o = str "Passed") || decide (o = str "Failed")

/-- Is the method's outcome `Passed` or `Failed`? -/
def isPF (m : TestMethodResult) : Bool := isPFOutcome m.outcome

/-- The number of a file record's methods whose outcome is `Passed` or
`Failed`. -/
def pfCount (fr : TestFileResult) : Nat := (fr.methods.filter isPF).length

/-- The sum of `counts.passed + counts.failed` over the whole store. -/
def sumCounts (store : List (List Char × TestFileResult)) : Nat :=
  (store.map (fun p => p.2.counts.passed + p.2.counts.failed)).sum

/-- A result entry that reached the record update (its definition was
found, its method and class names were determined, and its class file
resolved) and whose outcome is `Passed` or `Failed`. -/
def countedEntry (defs : List UnitTest) (resolve : List Char → Option (List Char))
    (e : UnitTestResultEntry) : Bool :=
  (entryTarget defs resolve e).isSome && isPFOutcome e.outcome

/-- A path free of the test-indicating substrings and the build-output
directory segments that the resolver's accept-loop rejects. -/
def goodPath (p : List Char) : Bool :=
  !(containsSub (str "Test") p) && !(containsSub (str "Tests") p) &&
    !(containsSub (str "/bin/") p) && !(containsSub (str "/obj/") p)

/-- The accepted-list invariant: every collected path passes the exclusion
filters, and no path occurs twice. -/
def goodAcc (acc : List (List Char)) : Prop :=
  (∀ p ∈ acc, goodPath p = true) ∧ acc.Nodup

/-- No identifier character immediately precedes the scan position whose
prefix is `u`: the position is either the start of the text or preceded by
a non-identifier character, so an identifier starting there is left-maximal. -/
def okBreak (u : List Char) : Prop :=
  ∀ c, u.getLast? = some c → isIdChar c = false

/-!
Section: Concrete sample inputs used by the claim theorems
-/

def sampleDefs : List UnitTest := [⟨str "1", some (str "M1"), str "Ns.C", none, none⟩]

def sampleResolve : List Char → Option (List Char) := fun _ => some (str "/w/CTests.cs")

/-- One result entry whose outcome is neither `Passed` nor `Failed`. -/
def skippedEntries : List UnitTestResultEntry :=
  [⟨str "1", str "Skipped", some (str "M1"), none, none, none⟩]

/-- The file record ingestion builds from `skippedEntries`. -/
def skippedRecord : TestFileResult :=
  ⟨str "/w/CTests.cs", TestState.pass, ⟨0, 0⟩, [⟨str "M1", str "Skipped", none, []⟩]⟩

/-- One failed result entry. -/
def failedEntries : List UnitTestResultEntry :=
  [⟨str "1", str "Failed", some (str "M1"), none, none, none⟩]

/-- The file record ingestion builds from `failedEntries`. -/
def failedRecord : TestFileResult :=
  ⟨str "/w/CTests.cs", TestState.fail, ⟨0, 1⟩,
    [⟨str "M1", str "Failed", some (str "Test M1 failed"), []⟩]⟩

/-- A test file declaring one mock field. -/
def mockDeclContent : List Char := str "private readonly Mock<IUserService> _mockService;"

/-- Scenario B's test file declaration. -/
def pricingContent : List Char := str "private readonly Mock<IPricingEngine> _mockPricing;"

/-- Scenario B's method body: the mock is accessed only through `.Object`. -/
def pricingBody : List Char := str "_mockPricing.Object.Calculate(order);"

/-- The mock-pattern matches of a file, keyed by the declared mock name:
`(mockName, type)` in match order. -/
def mockNamePairs (fileContent : List Char) : List (List Char × List Char) :=
  (scanAll tryMock fileContent).map (fun p => (p.2, p.1))

/-- The mock-pattern matches keyed by the derived unwrapped field name. -/
def mockDerivedPairs (fileContent : List Char) : List (List Char × List Char) :=
  (scanAll tryMock fileContent).map (fun p => (jsDeriveObjectName p.2, p.1))

/-- The instantiation-pattern matches, keyed by the assigned identifier. -/
def instKeyPairs (fileContent : List Char) : List (List Char × List Char) :=
  scanAll tryInst fileContent

/-!
Section: Theorems

First the helper lemmas shared across claims, then one theorem per claim
(with its witness or counterexample).
-/

theorem mapGet_mapSet {κ ν : Type} [DecidableEq κ] (k k' : κ) (v : ν)
    (m : List (κ × ν)) :
    mapGet k (mapSet k' v m) = if k' = k then some v else mapGet k m := by
  induction m with
  | nil => simp [mapGet, mapSet]
  | cons p rest ih =>
    obtain ⟨k'', v''⟩ := p
    by_cases h1 : k'' = k'
    · by_cases h2 : k' = k <;> simp [mapSet, mapGet, h1, h2]
    · by_cases h3 : k'' = k
      · have h5 : ¬ k' = k := fun hh => h1 (h3.trans hh.symm)
        have h6 : ¬ k = k' := fun hh => h5 hh.symm
        simp [mapSet, mapGet, h1, h3, h5, h6]
      · simp [mapSet, mapGet, h1, h3, ih]

theorem mem_addSet {α : Type} [DecidableEq α] (s : List α) (x y : α) :
    y ∈ addSet s x ↔ y ∈ s ∨ y = x := by
  unfold addSet
  by_cases h : x ∈ s
  · simp only [if_pos h]
    constructor
    · exact Or.inl
    · rintro (hy | rfl)
      · exact hy
      · exact h
  · simp [if_neg h]

theorem mem_foldl_addSet {α : Type} [DecidableEq α] (l : List α) (s : List α)
    (x : α) (h : x ∈ s ∨ x ∈ l) : x ∈ l.foldl addSet s := by
  induction l generalizing s with
  | nil =>
    rcases h with h | h
    · exact h
    · cases h
  | cons a l ih =>
    simp only [List.foldl_cons]
    apply ih
    rcases h with h | h
    · exact Or.inl ((mem_addSet s a x).mpr (Or.inl h))
    · rcases List.mem_cons.mp h with rfl | h
      · exact Or.inl ((mem_addSet s x x).mpr (Or.inr rfl))
      · exact Or.inr h

theorem isPF_iff (mr : TestMethodResult) :
    isPF mr = true ↔ (mr.outcome = str "Passed" ∨ mr.outcome = str "Failed") := by
  unfold isPF isPFOutcome
  simp

theorem applyMethod_methods (fr : TestFileResult) (mr : TestMethodResult) :
    (applyMethod fr mr).methods = fr.methods ++ [mr] := by
  unfold applyMethod
  by_cases h1 : mr.outcome = str "Failed"
  · simp only [if_pos h1]
  · simp only [if_neg h1]
    by_cases h2 : mr.outcome = str "Passed"
    · simp only [if_pos h2]
    · simp only [if_neg h2]

theorem applyMethod_state (fr : TestFileResult) (mr : TestMethodResult) :
    (applyMethod fr mr).state =
      if mr.outcome = str "Failed" then TestState.fail else fr.state := by
  unfold applyMethod
  by_cases h1 : mr.outcome = str "Failed"
  · simp only [if_pos h1]
  · simp only [if_neg h1]
    by_cases h2 : mr.outcome = str "Passed"
    · simp only [if_pos h2]
    · simp only [if_neg h2]

theorem applyMethod_failed (fr : TestFileResult) (mr : TestMethodResult) :
    (applyMethod fr mr).counts.failed =
      fr.counts.failed + (if mr.outcome = str "Failed" then 1 else 0) := by
  unfold applyMethod
  by_cases h1 : mr.outcome = str "Failed"
  · simp only [if_pos h1]
  · simp only [if_neg h1]
    by_cases h2 : mr.outcome = str "Passed"
    · simp only [if_pos h2]
      rfl
    · simp only [if_neg h2]
      rfl

theorem applyMethod_countsSum (fr : TestFileResult) (mr : TestMethodResult) :
    (applyMethod fr mr).counts.passed + (applyMethod fr mr).counts.failed =
      fr.counts.passed + fr.counts.failed + (if isPF mr then 1 else 0) := by
  unfold applyMethod
  by_cases h1 : mr.outcome = str "Failed"
  · have hp : isPF mr = true := (isPF_iff mr).mpr (Or.inr h1)
    simp only [if_pos h1]
    simp [hp]
    omega
  · simp only [if_neg h1]
    by_cases h2 : mr.outcome = str "Passed"
    · have hp : isPF mr = true := (isPF_iff mr).mpr (Or.inl h2)
      simp only [if_pos h2]
      simp [hp]
      omega
    · have hp : isPF mr = false := by
        rw [← Bool.not_eq_true]
        intro hc
        rcases (isPF_iff mr).mp hc with h | h
        · exact h2 h
        · exact h1 h
      simp only [if_neg h2]
      simp [hp]

theorem entryTarget_outcome (defs : List UnitTest)
    (resolve : List Char → Option (List Char)) (e : UnitTestResultEntry)
    (fp : List Char) (mr : TestMethodResult)
    (h : entryTarget defs resolve e = some (fp, mr)) : mr.outcome = e.outcome := by
  unfold entryTarget at h
  repeat' split at h
  all_goals try simp_all
  all_goals (obtain ⟨h1, h2⟩ := h; rw [← h2])

theorem mapGet_foldl_mapSet {α κ ν : Type} [DecidableEq κ]
    (f : α → κ) (g : α → ν) (pairs : List α) (m0 : List (κ × ν)) (k : κ) :
    mapGet k (pairs.foldl (fun m p => mapSet (f p) (g p) m) m0) =
      match lastAssoc k (pairs.map (fun p => (f p, g p))) with
      | some v => some v
      | none => mapGet k m0 := by
  induction pairs generalizing m0 with
  | nil => simp [lastAssoc]
  | cons p ps ih =>
    simp only [List.foldl_cons, List.map_cons, lastAssoc]
    rw [ih]
    cases hps : lastAssoc k (ps.map (fun p => (f p, g p))) with
    | some v => simp
    | none =>
      simp only []
      rw [mapGet_mapSet]
      by_cases hp : f p = k <;> simp [hp]

theorem mockLoop_fst (pairs : List (List Char × List Char))
    (ft mt : List (List Char × List Char)) :
    (mockLoop pairs (ft, mt)).1 =
      pairs.foldl (fun m p => mapSet (jsDeriveObjectName p.2) p.1 m) ft := by
  induction pairs generalizing ft mt with
  | nil => rfl
  | cons p ps ih => simp only [mockLoop, List.foldl_cons] at *; rw [ih]

theorem mockLoop_snd (pairs : List (List Char × List Char))
    (ft mt : List (List Char × List Char)) :
    (mockLoop pairs (ft, mt)).2 =
      pairs.foldl (fun m p => mapSet p.2 p.1 m) mt := by
  induction pairs generalizing ft mt with
  | nil => rfl
  | cons p ps ih => simp only [mockLoop, List.foldl_cons] at *; rw [ih]

/-- C3: for every result entry with a matching test definition, the method
name is chosen in priority order — (1) the result entry's own `testName`,
(2) the definition's nested `TestMethod` `testName`, (3) the definition's
own `name`, (4) the definition's nested `TestMethod` `methodName` — and a
`.`-qualified choice is reduced to its last `.`-separated segment. -/
theorem claim_C3 (e : UnitTestResultEntry) (d : UnitTest) :
    (∀ s, e.testName = some s → s ≠ [] →
        extractMethodName e d = some (finalizeName s)) ∧
    (optFalsy e.testName → ∀ s, d.tmTestName = some s → s ≠ [] →
        extractMethodName e d = some (finalizeName s)) ∧
    (optFalsy e.testName → optFalsy d.tmTestName → ∀ s, d.name = some s → s ≠ [] →
        extractMethodName e d = some (finalizeName s)) ∧
    (optFalsy e.testName → optFalsy d.tmTestName → optFalsy d.name →
        extractMethodName e d = Option.map finalizeName d.tmMethodName) ∧
    (∀ s, s.contains '.' = true → finalizeName s = (splitSep '.' s).getLastD []) := by
  refine ⟨?_, ?_, ?_, ?_, ?_⟩
  · intro s hs hne
    simp [extractMethodName, cleanupName, jsOr, hs, hne]
  · intro hf s hs hne
    rcases hf with hf | hf <;>
      simp [extractMethodName, cleanupName, jsOr, hf, hs, hne]
  · intro hf1 hf2 s hs hne
    rcases hf1 with hf1 | hf1 <;> rcases hf2 with hf2 | hf2 <;>
      simp [extractMethodName, cleanupName, jsOr, hf1, hf2, hs, hne]
  · intro hf1 hf2 hf3
    rcases hf1 with hf1 | hf1 <;> rcases hf2 with hf2 | hf2 <;>
      rcases hf3 with hf3 | hf3 <;>
      simp [extractMethodName, cleanupName, jsOr, hf1, hf2, hf3]
  · intro s h
    unfold finalizeName
    rw [if_pos h]

/-- Witness for C3 at a concrete entry whose `testName` is the qualified
`Ns.Cls.M`: the extracted method name is the last segment `M`. -/
theorem claim_C3_witness :
    extractMethodName ⟨str "1", str "Passed", some (str "Ns.Cls.M"), none, none, none⟩
      ⟨str "1", none, str "Ns.Cls", none, none⟩ = some (str "M") := by
  have h := (claim_C3 ⟨str "1", str "Passed", some (str "Ns.Cls.M"), none, none, none⟩
      ⟨str "1", none, str "Ns.Cls", none, none⟩).1 (str "Ns.Cls.M") rfl (by decide)
  rw [h]
  decide

/-- C8: ingesting a report whose required sections are missing leaves the
prior result store untouched. -/
theorem claim_C8 (trx : TrxReport) (resolve : List Char → Option (List Char))
    (prior : List (List Char × TestFileResult))
    (h : trx.unitTestResults = none ∨ trx.testDefinitions = none) :
    parseResultsAndUpdateDecorations trx resolve prior = prior := by
  unfold parseResultsAndUpdateDecorations
  rcases h with h | h
  · rw [h]
  · rw [h]
    cases trx.unitTestResults <;> rfl

/-- Witness for C8: a report with no `UnitTestResult` section leaves a
one-record prior store unchanged. -/
theorem claim_C8_witness :
    parseResultsAndUpdateDecorations ⟨none, some []⟩ (fun _ => none)
        [(str "/old.cs", freshResult (str "/old.cs"))] =
      [(str "/old.cs", freshResult (str "/old.cs"))] :=
  claim_C8 _ _ _ (Or.inl rfl)

/-- C9: the method-reference resolver never propagates a failure: an
unreadable test file (the read threw) and an unlocatable method body both
yield the empty list. -/
theorem claim_C9 (fs : List Char → List (List Char)) (methodName : List Char)
    (fileRead : Option (List Char)) :
    (fileRead = none → analyzeTestMethodReferences fs methodName fileRead = []) ∧
    (∀ content, fileRead = some content → findMethodBody methodName content = none →
        analyzeTestMethodReferences fs methodName fileRead = []) := by
  constructor
  · intro h
    rw [h]
    rfl
  · intro content h hb
    rw [h]
    simp only [analyzeTestMethodReferences, hb]

/-- Witness for C9: a failed file read yields the empty list. -/
theorem claim_C9_witness :
    analyzeTestMethodReferences (fun _ => []) (str "M") none = [] :=
  (claim_C9 (fun _ => []) (str "M") none).1 rfl

/-- Counterexample to C1 as stated: for a report whose single resolved
result entry has outcome `Skipped`, the built file record has one method
but `counts.passed + counts.failed = 0`, so the equation fails for outcome
strings other than `Passed` and `Failed`. -/
theorem claim_C1_counterexample :
    Option.map (fun fr => fr.counts.passed + fr.counts.failed == fr.methods.length)
        (mapGet (str "/w/CTests.cs")
          (ingestEntries skippedEntries sampleDefs sampleResolve)) =
      some false := by
  decide

/-- Counterexample to C4 as stated: for the declaration
`Mock<IUserService> _mockService`, neither the claim's literally stripped
name `Service` nor its example spelling `_service` is registered in
`fieldTypes`, although the mock itself is recorded in `mockTypes`. -/
theorem claim_C4_counterexample :
    mapGet (str "_mockService")
        (analyzeTestClassDependencies mockDeclContent).mockTypes =
      some (str "IUserService") ∧
    mapGet (str "Service")
        (analyzeTestClassDependencies mockDeclContent).fieldTypes = none ∧
    mapGet (str "_service")
        (analyzeTestClassDependencies mockDeclContent).fieldTypes = none := by
  refine ⟨by decide, by decide, by decide⟩

/-- C4 amended: for every mock declaration `Mock<Type> name`, the analyzer
records `mockTypes[name] = Type` (the last declaration of that name
winning) and registers `fieldTypes[derived] = Type` where `derived`
replaces a leading `_mock` by `_` or strips a leading `mock`, keeping the
remainder's capitalisation (`_mockService` yields `_Service`), provided no
later mock derives the same field name with a different type and no direct
instantiation overwrites it. -/
theorem claim_C4_amended (fileContent name ty : List Char)
    (h1 : lastAssoc name (mockNamePairs fileContent) = some ty)
    (h2 : lastAssoc (jsDeriveObjectName name) (mockDerivedPairs fileContent) = some ty)
    (h3 : lastAssoc (jsDeriveObjectName name) (instKeyPairs fileContent) = none) :
    mapGet name (analyzeTestClassDependencies fileContent).mockTypes = some ty ∧
    mapGet (jsDeriveObjectName name)
        (analyzeTestClassDependencies fileContent).fieldTypes = some ty := by
  unfold analyzeTestClassDependencies
  constructor
  · simp only [mockLoop_snd]
    have h := mapGet_foldl_mapSet (fun p : List Char × List Char => p.2)
      (fun p => p.1) (scanAll tryMock fileContent) (List.nil) name
    rw [h]
    unfold mockNamePairs at h1
    rw [h1]
  · simp only [mockLoop_fst]
    rw [mapGet_foldl_mapSet (fun p : List Char × List Char => p.1)
      (fun p => p.2) (scanAll tryInst fileContent)]
    unfold instKeyPairs at h3
    have h3' : lastAssoc (jsDeriveObjectName name)
        ((scanAll tryInst fileContent).map (fun p => (p.1, p.2))) = none := by
      simpa using h3
    rw [h3']
    rw [mapGet_foldl_mapSet
      (fun p : List Char × List Char => jsDeriveObjectName p.2)
      (fun p => p.1) (scanAll tryMock fileContent)]
    unfold mockDerivedPairs at h2
    rw [h2]

/-- Witness for the amended C4 at the concrete declaration
`Mock<IUserService> _mockService`: the derived field name `_Service` (not
`_service`) maps to `IUserService`. -/
theorem claim_C4_amended_witness :
    mapGet (str "_mockService")
        (analyzeTestClassDependencies mockDeclContent).mockTypes =
      some (str "IUserService") ∧
    mapGet (str "_Service")
        (analyzeTestClassDependencies mockDeclContent).fieldTypes =
      some (str "IUserService") := by
  have h := claim_C4_amended mockDeclContent (str "_mockService")
    (str "IUserService") (by decide) (by decide) (by decide)
  have hd : jsDeriveObjectName (str "_mockService") = str "_Service" := by decide
  rw [hd] at h
  exact h

/-- Counterexample to C5 as stated: `NotFound` is not among the fallback
words of `Should_Return_NotFound_WhenMissing` (the camel-case expansion
splits it into `Not`, dropped as too short, and `Found`). -/
theorem claim_C5_counterexample :
    ¬ (str "NotFound") ∈ methodWords (str "Should_Return_NotFound_WhenMissing") := by
  decide

/-- C5 amended: the fallback search for `Should_Return_NotFound_WhenMissing`
runs with exactly the words `Return`, `Found`, `Missing` (each longer than
three characters and no stop word; `Should` and `When` are excluded by the
stop-word list, `Not` by the length filter). -/
theorem claim_C5_amended :
    methodWords (str "Should_Return_NotFound_WhenMissing") =
      [str "Return", str "Found", str "Missing"] := by
  decide

/-- C6: every type appearing as a value in `mockTypes` enters the
candidate-type set unconditionally, independent of the method body; in
particular, for the Scenario B file (`Mock<IPricingEngine> _mockPricing`)
and a body using only `_mockPricing.Object`, the candidate set contains
`IPricingEngine`, whose filesystem search uses both `IPricingEngine.cs`
and the `I`-stripped `PricingEngine.cs`. -/
theorem claim_C6 :
    (∀ (methodBody : List Char) (deps : ClassDeps) (ty : List Char),
        ty ∈ deps.mockTypes.map Prod.snd → ty ∈ referencedTypesOf methodBody deps) ∧
    (str "IPricingEngine") ∈
      referencedTypesOf pricingBody (analyzeTestClassDependencies pricingContent) ∧
    possibleFileNames (str "IPricingEngine") =
      [str "IPricingEngine.cs", str "PricingEngine.cs"] := by
  refine ⟨?_, by decide, by decide⟩
  intro methodBody deps ty hty
  simp only [referencedTypesOf]
  exact mem_foldl_addSet _ _ _ (Or.inr hty)

/-- Witness for C6's universal part at a one-mock symbol table whose mock
field is never lookup-resolved from the body. -/
theorem claim_C6_witness :
    str "IFoo" ∈ referencedTypesOf (str "x.y") ⟨[], [(str "_m", str "IFoo")], []⟩ :=
  claim_C6.1 (str "x.y") ⟨[], [(str "_m", str "IFoo")], []⟩ (str "IFoo") (by decide)

theorem pfCount_applyMethod (fr : TestFileResult) (mr : TestMethodResult) :
    pfCount (applyMethod fr mr) = pfCount fr + (if isPF mr then 1 else 0) := by
  unfold pfCount
  rw [applyMethod_methods, List.filter_append, List.length_append]
  by_cases h : isPF mr = true <;> simp [List.filter_cons, h]

theorem processEntry_recInv (P : TestFileResult → Prop)
    (hfresh : ∀ fp, P (freshResult fp))
    (happly : ∀ fr mr, P fr → P (applyMethod fr mr))
    (defs : List UnitTest) (resolve : List Char → Option (List Char))
    (store : List (List Char × TestFileResult)) (e : UnitTestResultEntry)
    (hinv : ∀ fp fr, mapGet fp store = some fr → P fr) :
    ∀ fp fr, mapGet fp (processEntry defs resolve store e) = some fr → P fr := by
  intro fp fr h
  unfold processEntry at h
  cases ht : entryTarget defs resolve e with
  | none =>
    rw [ht] at h
    exact hinv fp fr h
  | some pr =>
    obtain ⟨fp', mr⟩ := pr
    rw [ht] at h
    rw [mapGet_mapSet] at h
    by_cases hk : fp' = fp
    · rw [if_pos hk] at h
      injection h with h
      rw [← h]
      apply happly
      cases hget : mapGet fp' store with
      | none => simpa [hget] using hfresh fp'
      | some fr1 => simpa [hget] using hinv fp' fr1 hget
    · rw [if_neg hk] at h
      exact hinv fp fr h

theorem foldl_recInv (P : TestFileResult → Prop)
    (hfresh : ∀ fp, P (freshResult fp))
    (happly : ∀ fr mr, P fr → P (applyMethod fr mr))
    (defs : List UnitTest) (resolve : List Char → Option (List Char))
    (entries : List UnitTestResultEntry) :
    ∀ store, (∀ fp fr, mapGet fp store = some fr → P fr) →
      ∀ fp fr, mapGet fp (entries.foldl (processEntry defs resolve) store) = some fr →
        P fr := by
  induction entries with
  | nil => intro store hinv; exact hinv
  | cons e es ih =>
    intro store hinv
    simp only [List.foldl_cons]
    exact ih (processEntry defs resolve store e)
      (processEntry_recInv P hfresh happly defs resolve store e hinv)

theorem sumCounts_mapSet_present (k : List Char) (v v0 : TestFileResult)
    (m : List (List Char × TestFileResult)) (h : mapGet k m = some v0) :
    sumCounts (mapSet k v m) + (v0.counts.passed + v0.counts.failed) =
      sumCounts m + (v.counts.passed + v.counts.failed) := by
  induction m with
  | nil => simp [mapGet] at h
  | cons p rest ih =>
    obtain ⟨k', v'⟩ := p
    by_cases h1 : k' = k
    · simp only [mapGet, if_pos h1] at h
      injection h with h
      subst h
      simp only [mapSet, if_pos h1, sumCounts, List.map_cons, List.sum_cons]
      omega
    · simp only [mapGet, if_neg h1] at h
      simp only [mapSet, if_neg h1, sumCounts, List.map_cons, List.sum_cons]
      have := ih h
      simp only [sumCounts] at this
      omega

theorem sumCounts_mapSet_absent (k : List Char) (v : TestFileResult)
    (m : List (List Char × TestFileResult)) (h : mapGet k m = none) :
    sumCounts (mapSet k v m) = sumCounts m + (v.counts.passed + v.counts.failed) := by
  induction m with
  | nil => simp [mapSet, sumCounts]
  | cons p rest ih =>
    obtain ⟨k', v'⟩ := p
    by_cases h1 : k' = k
    · simp only [mapGet, if_pos h1] at h
      exact absurd h (by simp)
    · simp only [mapGet, if_neg h1] at h
      simp only [mapSet, if_neg h1, sumCounts, List.map_cons, List.sum_cons]
      have := ih h
      simp only [sumCounts] at this
      omega

theorem sumCounts_processEntry (defs : List UnitTest)
    (resolve : List Char → Option (List Char))
    (store : List (List Char × TestFileResult)) (e : UnitTestResultEntry) :
    sumCounts (processEntry defs resolve store e) =
      sumCounts store + (if countedEntry defs resolve e then 1 else 0) := by
  unfold processEntry countedEntry
  cases ht : entryTarget defs resolve e with
  | none => simp [ht]
  | some pr =>
    obtain ⟨fp, mr⟩ := pr
    have hout : mr.outcome = e.outcome := entryTarget_outcome defs resolve e fp mr ht
    have hPF : isPF mr = isPFOutcome e.outcome := by unfold isPF; rw [hout]
    simp only [ht, Option.isSome_some, Bool.true_and]
    cases hget : mapGet fp store with
    | none =>
      rw [sumCounts_mapSet_absent _ _ _ hget]
      have hc := applyMethod_countsSum ((mapGet fp store).getD (freshResult fp)) mr
      rw [hget] at hc
      simp only [Option.getD_none] at hc
      simp only [hget, Option.getD_none]
      rw [hc]
      simp only [freshResult]
      rw [hPF]
      by_cases hp : isPFOutcome e.outcome = true <;> simp [hp]
    | some v0 =>
      have hx := sumCounts_mapSet_present fp
        (applyMethod ((mapGet fp store).getD (freshResult fp)) mr) v0 store hget
      have hc := applyMethod_countsSum ((mapGet fp store).getD (freshResult fp)) mr
      rw [hget] at hc
      simp only [Option.getD_some] at hc
      simp only [hget, Option.getD_some] at hx ⊢
      rw [hc] at hx
      rw [hPF] at hx
      by_cases hp : isPFOutcome e.outcome = true
      · simp only [hp, if_true] at hx ⊢
        omega
      · simp only [Bool.not_eq_true] at hp
        simp only [hp] at hx ⊢
        simp only [Bool.false_eq_true, if_false] at hx ⊢
        omega

theorem sumCounts_foldl (defs : List UnitTest)
    (resolve : List Char → Option (List Char))
    (entries : List UnitTestResultEntry) :
    ∀ store, sumCounts (entries.foldl (processEntry defs resolve) store) =
      sumCounts store + (entries.filter (countedEntry defs resolve)).length := by
  induction entries with
  | nil => intro store; simp
  | cons e es ih =>
    intro store
    simp only [List.foldl_cons]
    rw [ih, sumCounts_processEntry]
    by_cases hc : countedEntry defs resolve e = true
    · simp [List.filter_cons, hc]
      omega
    · simp only [Bool.not_eq_true] at hc
      simp [List.filter_cons, hc]

/-- C1 amended: for every ingestion, every built file record satisfies
`counts.passed + counts.failed` = the number of its methods whose outcome
is `Passed` or `Failed` (for reports whose outcomes are all `Passed`/`Failed`
this is `methods.length`), and the sum over the whole store equals the
number of result entries that were resolved to a file and whose outcome is
`Passed` or `Failed`. -/
theorem claim_C1_amended (entries : List UnitTestResultEntry)
    (defs : List UnitTest) (resolve : List Char → Option (List Char)) :
    (∀ fp fr, mapGet fp (ingestEntries entries defs resolve) = some fr →
        fr.counts.passed + fr.counts.failed = pfCount fr) ∧
    sumCounts (ingestEntries entries defs resolve) =
      (entries.filter (countedEntry defs resolve)).length := by
  constructor
  · apply foldl_recInv (fun fr => fr.counts.passed + fr.counts.failed = pfCount fr)
    · intro fp
      simp [freshResult, pfCount]
    · intro fr mr hfr
      rw [applyMethod_countsSum, pfCount_applyMethod, hfr]
    · intro fp fr h
      simp [mapGet] at h
  · have h := sumCounts_foldl defs resolve entries []
    unfold ingestEntries
    rw [h]
    simp [sumCounts]

/-- Witness for the amended C1 at the `Skipped` ingestion: the built record
has `0 + 0` counted methods. -/
theorem claim_C1_amended_witness :
    skippedRecord.counts.passed + skippedRecord.counts.failed = pfCount skippedRecord :=
  (claim_C1_amended skippedEntries sampleDefs sampleResolve).1 (str "/w/CTests.cs")
    skippedRecord (by decide)

theorem processEntry_keepFail (defs : List UnitTest)
    (resolve : List Char → Option (List Char))
    (store : List (List Char × TestFileResult)) (e : UnitTestResultEntry)
    (fp : List Char)
    (h : ∃ fr, mapGet fp store = some fr ∧ fr.state = TestState.fail) :
    ∃ fr, mapGet fp (processEntry defs resolve store e) = some fr ∧
      fr.state = TestState.fail := by
  obtain ⟨fr, hget, hfail⟩ := h
  unfold processEntry
  cases ht : entryTarget defs resolve e with
  | none => exact ⟨fr, hget, hfail⟩
  | some pr =>
    obtain ⟨fp', mr⟩ := pr
    by_cases hk : fp' = fp
    · subst hk
      refine ⟨applyMethod ((mapGet fp' store).getD (freshResult fp')) mr, ?_, ?_⟩
      · rw [mapGet_mapSet, if_pos rfl]
      · rw [applyMethod_state]
        by_cases ho : mr.outcome = str "Failed" <;> simp [ho, hget, hfail]
    · refine ⟨fr, ?_, hfail⟩
      rw [mapGet_mapSet, if_neg hk]
      exact hget

theorem foldl_keepFail (defs : List UnitTest)
    (resolve : List Char → Option (List Char))
    (rest : List UnitTestResultEntry) :
    ∀ store fp, (∃ fr, mapGet fp store = some fr ∧ fr.state = TestState.fail) →
      ∃ fr, mapGet fp (rest.foldl (processEntry defs resolve) store) = some fr ∧
        fr.state = TestState.fail := by
  induction rest with
  | nil => intro store fp h; exact h
  | cons e es ih =>
    intro store fp h
    simp only [List.foldl_cons]
    exact ih (processEntry defs resolve store e) fp
      (processEntry_keepFail defs resolve store e fp h)

/-- C2: for every file record produced by one ingestion, `state = fail`
iff `counts.failed > 0`; and within a run the state is monotone — once a
prefix of the report has driven a file's state to `fail`, processing the
remaining entries never reverts it to `pass`. -/
theorem claim_C2 (defs : List UnitTest) (resolve : List Char → Option (List Char)) :
    (∀ entries fp fr, mapGet fp (ingestEntries entries defs resolve) = some fr →
        (fr.state = TestState.fail ↔ 0 < fr.counts.failed)) ∧
    (∀ pre rest fp fr, mapGet fp (ingestEntries pre defs resolve) = some fr →
        fr.state = TestState.fail →
        ∀ fr', mapGet fp (ingestEntries (pre ++ rest) defs resolve) = some fr' →
          fr'.state = TestState.fail) := by
  constructor
  · intro entries
    apply foldl_recInv (fun fr => fr.state = TestState.fail ↔ 0 < fr.counts.failed)
    · intro fp
      simp [freshResult]
    · intro fr mr hfr
      rw [applyMethod_state, applyMethod_failed]
      by_cases ho : mr.outcome = str "Failed"
      · simp [ho]
      · simp [ho, hfr]
    · intro fp fr h
      simp [mapGet] at h
  · intro pre rest fp fr hget hfail fr' hget'
    have hsplit : ingestEntries (pre ++ rest) defs resolve =
        rest.foldl (processEntry defs resolve) (ingestEntries pre defs resolve) := by
      unfold ingestEntries
      rw [List.foldl_append]
    rw [hsplit] at hget'
    obtain ⟨fr'', h1, h2⟩ :=
      foldl_keepFail defs resolve rest (ingestEntries pre defs resolve) fp
        ⟨fr, hget, hfail⟩
    rw [hget'] at h1
    injection h1 with h1
    rw [h1]
    exact h2

/-- Witness for C2 at the one-failed-entry ingestion: the built record has
`state = fail` and one failure counted. -/
theorem claim_C2_witness :
    failedRecord.state = TestState.fail ↔ 0 < failedRecord.counts.failed :=
  (claim_C2 sampleDefs sampleResolve).1 failedEntries (str "/w/CTests.cs")
    failedRecord (by decide)

theorem foldl_preserve {α β : Type} (P : β → Prop) (step : β → α → β)
    (hstep : ∀ b a, P b → P (step b a)) (L : List α) :
    ∀ b, P b → P (L.foldl step b) := by
  induction L with
  | nil => intro b hb; exact hb
  | cons a L ih =>
    intro b hb
    simp only [List.foldl_cons]
    exact ih (step b a) (hstep b a hb)

theorem acceptFile_goodAcc (acc : List (List Char)) (f : List Char)
    (h : goodAcc acc) : goodAcc (acceptFile acc f) := by
  obtain ⟨hgood, hnd⟩ := h
  unfold acceptFile
  by_cases hc : (!(containsSub (str "Tests") f || containsSub (str "Test") f) &&
      !(containsSub (str "/bin/") f || containsSub (str "/obj/") f) &&
      !(decide (f ∈ acc))) = true
  · rw [if_pos hc]
    simp only [Bool.and_eq_true, Bool.not_eq_true', Bool.or_eq_false_iff,
      Bool.not_eq_true, decide_eq_false_iff_not] at hc
    obtain ⟨⟨⟨hT1, hT2⟩, hB1, hB2⟩, hmem⟩ := hc
    constructor
    · intro p hp
      rcases List.mem_append.mp hp with hp | hp
      · exact hgood p hp
      · rcases List.mem_singleton.mp hp with rfl
        unfold goodPath
        simp [hT1, hT2, hB1, hB2]
    · rw [List.nodup_append]
      refine ⟨hnd, List.nodup_singleton f, ?_⟩
      intro a ha hb
      rcases List.mem_singleton.mp hb with rfl
      exact hmem ha
  · rw [if_neg hc]
    exact ⟨hgood, hnd⟩

theorem addFiles_goodAcc (files acc : _) (h : goodAcc acc) :
    goodAcc (addFiles files acc) :=
  foldl_preserve goodAcc acceptFile acceptFile_goodAcc files acc h

theorem findFilesForType_goodAcc (fs : List Char → List (List Char))
    (typeName : List Char) (acc : List (List Char)) (h : goodAcc acc) :
    goodAcc (findFilesForType fs typeName acc) :=
  foldl_preserve goodAcc _
    (fun b a hb => addFiles_goodAcc (fs (str "**/" ++ a)) b hb)
    (possibleFileNames typeName) acc h

theorem fallbackFileSearch_goodAcc (fs : List Char → List (List Char))
    (methodName : List Char) (acc : List (List Char)) (h : goodAcc acc) :
    goodAcc (fallbackFileSearch fs methodName acc) :=
  foldl_preserve goodAcc _
    (fun b a hb => addFiles_goodAcc (fs (str "**/*" ++ a ++ str "*.cs")) b hb)
    (methodWords methodName) acc h

/-- C7: every list the method-reference resolver returns — whether from
type-based resolution, from the keyword fallback, or both — contains no
path with a test-indicating substring or a build-output segment, and no
path twice. -/
theorem claim_C7 (fs : List Char → List (List Char)) (methodName : List Char)
    (fileRead : Option (List Char)) :
    (analyzeTestMethodReferences fs methodName fileRead).all goodPath = true ∧
    (analyzeTestMethodReferences fs methodName fileRead).Nodup := by
  suffices h : goodAcc (analyzeTestMethodReferences fs methodName fileRead) by
    exact ⟨List.all_eq_true.mpr h.1, h.2⟩
  have hnil : goodAcc [] := ⟨fun p hp => absurd hp (List.not_mem_nil p), List.nodup_nil⟩
  cases fileRead with
  | none => simpa only [analyzeTestMethodReferences] using hnil
  | some content =>
    cases hb : findMethodBody methodName content with
    | none => simpa only [analyzeTestMethodReferences, hb] using hnil
    | some methodBody =>
      simp only [analyzeTestMethodReferences, hb]
      have hrefs : goodAcc (List.foldl (fun acc ty => findFilesForType fs ty acc) []
          (referencedTypesOf methodBody (analyzeTestClassDependencies content))) :=
        foldl_preserve goodAcc _
          (fun b a hbb => findFilesForType_goodAcc fs a b hbb) _ [] hnil
      split
      · exact fallbackFileSearch_goodAcc fs methodName _ hrefs
      · exact hrefs

theorem isIdStart_isIdChar (c : Char) (h : isIdStart c = true) : isIdChar c = true := by
  unfold isIdStart at h
  unfold isIdChar
  simp only [Bool.or_eq_true] at h ⊢
  rcases h with h | h
  · exact Or.inl (Or.inl h)
  · exact Or.inr h

theorem isWsChar_not_idChar (c : Char) (h : isWsChar c = true) : isIdChar c = false := by
  unfold isWsChar at h
  simp only [Bool.or_eq_true, decide_eq_true_eq] at h
  rcases h with ((((h | h) | h) | h) | h) | h <;> subst h <;> decide

theorem isWsChar_not_idStart (c : Char) (h : isWsChar c = true) :
    isIdStart c = false := by
  unfold isWsChar at h
  simp only [Bool.or_eq_true, decide_eq_true_eq] at h
  rcases h with ((((h | h) | h) | h) | h) | h <;> subst h <;> decide

theorem getLast?_cons_ne {c : Char} {u : List Char} (h : u ≠ []) :
    (c :: u).getLast? = u.getLast? := by
  cases u with
  | nil => exact absurd rfl h
  | cons x xs => exact List.getLast?_cons_cons

theorem getLast?_append_ne {xs ys : List Char} (h : ys ≠ []) :
    (xs ++ ys).getLast? = ys.getLast? := by
  induction xs with
  | nil => rfl
  | cons x xs ih =>
    rw [List.cons_append, getLast?_cons_ne, ih]
    intro hc
    rcases List.append_eq_nil.mp hc with ⟨-, h2⟩
    exact h h2

theorem mem_of_getLast?' {l : List Char} {a : Char} (h : l.getLast? = some a) :
    a ∈ l := by
  rcases List.mem_getLast?_eq_getLast (show a ∈ l.getLast? by simp [h]) with ⟨hne, rfl⟩
  exact List.getLast_mem hne

theorem okBreak_nil : okBreak [] := by
  intro c hc
  simp [List.getLast?] at hc

theorem okBreak_of_all (u : List Char) (h : ∀ x ∈ u, isIdChar x = false) :
    okBreak u :=
  fun x hx => h x (mem_of_getLast?' hx)

theorem okBreak_tail {c : Char} {u : List Char} (hu : u ≠ []) (h : okBreak (c :: u)) :
    okBreak u := by
  intro x hx
  apply h x
  rw [getLast?_cons_ne hu]
  exact hx

theorem okBreak_append {pre u : List Char} (hu : u ≠ []) (h : okBreak u) :
    okBreak (pre ++ u) := by
  intro x hx
  apply h x
  rwa [getLast?_append_ne hu] at hx

theorem litPref_eq (pat : List Char) : ∀ l r, litPref pat l = some r → l = pat ++ r := by
  induction pat with
  | nil =>
    intro l r h
    simp only [litPref, Option.some.injEq] at h
    simp [h]
  | cons c cs ih =>
    intro l r h
    cases l with
    | nil => simp [litPref] at h
    | cons d ds =>
      unfold litPref at h
      by_cases hc : c = d
      · rw [if_pos hc] at h
        rw [List.cons_append, ← hc, ih ds r h]
      · rw [if_neg hc] at h
        simp at h

theorem try1_head (l w r : List Char) (h : try1 l = some (w, r)) :
    ∃ cv tv, l = cv :: tv ∧ isIdStart cv = true := by
  cases l with
  | nil => simp [try1] at h
  | cons c t =>
    refine ⟨c, t, rfl, ?_⟩
    by_cases hs : isIdStart c = true
    · exact hs
    · simp only [try1] at h
      rw [if_neg hs] at h
      simp at h

theorem try1_struct (l w r : List Char) (h : try1 l = some (w, r)) :
    ∃ wsc, l = w ++ wsc ++ '.' :: r ∧ (∀ x ∈ w, isIdChar x = true) ∧
      (∀ x ∈ wsc, isWsChar x = true) ∧ w ≠ [] := by
  cases l with
  | nil => simp [try1] at h
  | cons c t =>
    simp only [try1] at h
    by_cases hs : isIdStart c = true
    · rw [if_pos hs] at h
      cases hd : (t.dropWhile isIdChar).dropWhile isWsChar with
      | nil =>
        rw [hd] at h
        simp at h
      | cons d rem' =>
        rw [hd] at h
        by_cases hdot : d = '.'
        · rw [show (match d :: rem' with
              | d :: rem =>
                if d = '.' then some (c :: t.takeWhile isIdChar, rem) else none
              | [] => none) =
              if d = '.' then some (c :: t.takeWhile isIdChar, rem') else none
              from rfl, if_pos hdot] at h
          simp only [Option.some.injEq, Prod.mk.injEq] at h
          obtain ⟨hw, hr⟩ := h
          subst hw
          subst hr
          subst hdot
          refine ⟨(t.dropWhile isIdChar).takeWhile isWsChar, ?_, ?_, ?_, by simp⟩
          · have h1 : t.takeWhile isIdChar ++ t.dropWhile isIdChar = t :=
              List.takeWhile_append_dropWhile isIdChar t
            have h2 : (t.dropWhile isIdChar).takeWhile isWsChar ++
                (t.dropWhile isIdChar).dropWhile isWsChar = t.dropWhile isIdChar :=
              List.takeWhile_append_dropWhile isWsChar (t.dropWhile isIdChar)
            rw [hd] at h2
            conv_lhs => rw [← h1, ← h2]
            simp [List.cons_append, List.append_assoc]
          · intro x hx
            rcases List.mem_cons.mp hx with rfl | hx
            · exact isIdStart_isIdChar x hs
            · exact List.mem_takeWhile_imp hx
          · intro x hx
            exact List.mem_takeWhile_imp hx
        · rw [show (match d :: rem' with
              | d :: rem =>
                if d = '.' then some (c :: t.takeWhile isIdChar, rem) else none
              | [] => none) =
              if d = '.' then some (c :: t.takeWhile isIdChar, rem') else none
              from rfl, if_neg hdot] at h
          simp at h
    · rw [if_neg hs] at h
      simp at h

theorem try1_len (l w r : List Char) (h : try1 l = some (w, r)) :
    r.length < l.length := by
  obtain ⟨wsc, hsplit, -, -, -⟩ := try1_struct l w r h
  rw [hsplit]
  simp [List.length_append]
  omega

theorem try2_cases (l w r : List Char) (h : try2 l = some (w, r)) :
    ∃ u v, l = u ++ v ∧ u ≠ [] ∧ okBreak u ∧ try1 v = some (w, r) := by
  cases l with
  | nil => simp [try2] at h
  | cons c t =>
    simp only [try2] at h
    by_cases hc : c = '='
    · rw [if_pos hc] at h
      subst hc
      refine ⟨'=' :: t.takeWhile isWsChar, t.dropWhile isWsChar, ?_, by simp, ?_, h⟩
      · conv_lhs => rw [← List.takeWhile_append_dropWhile isWsChar t]
        rfl
      · apply okBreak_of_all
        intro x hx
        rcases List.mem_cons.mp hx with rfl | hx
        · decide
        · exact isWsChar_not_idChar x (List.mem_takeWhile_imp hx)
    · rw [if_neg hc] at h
      simp at h

theorem try3_cases (l w r : List Char) (h : try3 l = some (w, r)) :
    ∃ u v, l = u ++ v ∧ u ≠ [] ∧ okBreak u ∧ try1 v = some (w, r) := by
  unfold try3 at h
  split at h
  · next c r2 heq =>
    split at h
    · next hws =>
      have hl : l = str "await" ++ (c :: r2) := litPref_eq _ _ _ heq
      refine ⟨str "await" ++ (c :: r2.takeWhile isWsChar), r2.dropWhile isWsChar,
        ?_, by simp [str], ?_, h⟩
      · rw [hl]
        conv_lhs => rw [← List.takeWhile_append_dropWhile isWsChar r2]
        simp [List.cons_append, List.append_assoc]
      · apply okBreak_append (by simp)
        apply okBreak_of_all
        intro x hx
        rcases List.mem_cons.mp hx with rfl | hx
        · exact isWsChar_not_idChar x hws
        · exact isWsChar_not_idChar x (List.mem_takeWhile_imp hx)
    · simp at h
  · simp at h

theorem cand_mem : ∀ (fuel : Nat) (l : List Char), l.length ≤ fuel →
    ∀ (u v w r : List Char), l = u ++ v → okBreak u → try1 v = some (w, r) →
      w ∈ scanFuel try1 fuel l := by
  intro fuel
  induction fuel with
  | zero =>
    intro l hl u v w r hsplit hok h1
    have hln : l = [] := List.length_eq_zero.mp (Nat.le_zero.mp hl)
    subst hln
    have hv : v = [] := (List.append_eq_nil.mp hsplit.symm).2
    subst hv
    simp [try1] at h1
  | succ fuel ih =>
    intro l hl u v w r hsplit hok h1
    cases l with
    | nil =>
      have hv : v = [] := (List.append_eq_nil.mp hsplit.symm).2
      subst hv
      simp [try1] at h1
    | cons c t =>
      cases u with
      | nil =>
        simp only [List.nil_append] at hsplit
        subst hsplit
        simp only [scanFuel, h1]
        exact List.mem_cons_self _ _
      | cons c0 u' =>
        rw [List.cons_append] at hsplit
        injection hsplit with hc ht
        cases hm : try1 (c :: t) with
        | none =>
          simp only [scanFuel, hm]
          apply ih t ?_ u' v w r ht ?_ h1
          · simp only [List.length_cons] at hl
            omega
          · by_cases hu' : u' = []
            · subst hu'
              exact okBreak_nil
            · exact okBreak_tail hu' hok
        | some pr =>
          obtain ⟨id, rem⟩ := pr
          simp only [scanFuel, hm]
          obtain ⟨wsc, hl2, hid, hws, hidne⟩ := try1_struct (c :: t) id rem hm
          have hcomb : (c0 :: u') ++ v = id ++ (wsc ++ '.' :: rem) := by
            rw [List.cons_append, ← ht, ← hc, hl2, List.append_assoc]
          rcases List.append_eq_append_iff.mp hcomb with ⟨a1, ha1, ha2⟩ | ⟨c1, hc1, hc2⟩
          · exfalso
            have hne : (c0 :: u' : List Char) ≠ [] := by simp
            have hlast := List.getLast?_eq_getLast (c0 :: u') hne
            have hmem : (c0 :: u').getLast hne ∈ id := by
              rw [ha1]
              exact List.mem_append_left a1 (List.getLast_mem hne)
            have hid2 := hid _ hmem
            have hok2 := hok _ hlast
            rw [hid2] at hok2
            exact Bool.noConfusion hok2
          · rcases List.append_eq_append_iff.mp hc2.symm with ⟨a2, ha21, ha22⟩ | ⟨c2, hc21, hc22⟩
            · exfalso
              obtain ⟨cv, tv, hv, hcv⟩ := try1_head v w r h1
              have hveq : cv :: tv = a2 ++ '.' :: rem := hv.symm.trans ha22
              cases a2 with
              | nil =>
                rw [List.nil_append] at hveq
                injection hveq with h2 h3
                rw [h2] at hcv
                exact absurd hcv (by decide)
              | cons x a2' =>
                rw [List.cons_append] at hveq
                injection hveq with h2 h3
                have hxws : isWsChar x = true := by
                  apply hws
                  rw [ha21]
                  exact List.mem_append_right c1 (List.mem_cons_self x a2')
                rw [← h2] at hxws
                have hns := isWsChar_not_idStart cv hxws
                rw [hcv] at hns
                exact Bool.noConfusion hns
            · cases c2 with
              | nil =>
                rw [List.nil_append] at hc22
                exfalso
                obtain ⟨cv, tv, hv, hcv⟩ := try1_head v w r h1
                have hveq : '.' :: rem = cv :: tv := hc22.trans hv
                injection hveq with h2 h3
                rw [← h2] at hcv
                exact absurd hcv (by decide)
              | cons d c2' =>
                rw [List.cons_append] at hc22
                injection hc22 with hd hrem
                apply List.mem_cons_of_mem
                apply ih rem ?_ c2' v w r hrem ?_ h1
                · have hlen := try1_len (c :: t) id rem hm
                  simp only [List.length_cons] at hlen hl
                  omega
                · by_cases hc2' : c2' = []
                  · subst hc2'
                    exact okBreak_nil
                  · have hshape : c0 :: u' = (id ++ wsc ++ ['.']) ++ c2' := by
                      rw [hc1, hc21, ← hd]
                      simp [List.append_assoc]
                    intro x hx
                    apply hok x
                    rw [hshape, getLast?_append_ne hc2']
                    exact hx

theorem scanT_cand (m : List Char → Option (List Char × List Char))
    (hmc : ∀ l w r, m l = some (w, r) →
      ∃ u v, l = u ++ v ∧ u ≠ [] ∧ okBreak u ∧ try1 v = some (w, r)) :
    ∀ (fuel : Nat) (l w : List Char), w ∈ scanFuel m fuel l →
      ∃ u v r, l = u ++ v ∧ u ≠ [] ∧ okBreak u ∧ try1 v = some (w, r) := by
  intro fuel
  induction fuel with
  | zero =>
    intro l w h
    simp [scanFuel] at h
  | succ fuel ih =>
    intro l w h
    cases l with
    | nil => simp [scanFuel] at h
    | cons c t =>
      cases hmm : m (c :: t) with
      | none =>
        simp only [scanFuel, hmm] at h
        obtain ⟨u, v, r, hsplit, hu, hok, h1⟩ := ih t w h
        refine ⟨c :: u, v, r, ?_, by simp, ?_, h1⟩
        · rw [List.cons_append, hsplit]
        · intro x hx
          apply hok x
          rwa [getLast?_cons_ne hu] at hx
      | some pr =>
        obtain ⟨w0, rem⟩ := pr
        simp only [scanFuel, hmm] at h
        rcases List.mem_cons.mp h with rfl | h
        · obtain ⟨u, v, hsplit, hu, hok, h1⟩ := hmc (c :: t) w rem hmm
          exact ⟨u, v, rem, hsplit, hu, hok, h1⟩
        · obtain ⟨u2, v2, r2, hsplit2, hu2, hok2, h12⟩ := ih rem w h
          obtain ⟨u0, v0, hsplit0, hu0, hok0, h10⟩ := hmc (c :: t) w0 rem hmm
          obtain ⟨wsc, hv0, -, -, -⟩ := try1_struct v0 w0 rem h10
          refine ⟨(u0 ++ (w0 ++ wsc ++ ['.'])) ++ u2, v2, r2, ?_, ?_, ?_, h12⟩
          · rw [hsplit0, hv0, hsplit2]
            simp [List.append_assoc]
          · intro hcon
            rcases List.append_eq_nil.mp hcon with ⟨h1, -⟩
            rcases List.append_eq_nil.mp h1 with ⟨h2, -⟩
            exact hu0 h2
          · exact okBreak_append hu2 hok2

theorem scan2_sub (l w : List Char) (h : w ∈ scanAll try2 l) : w ∈ scanAll try1 l := by
  obtain ⟨u, v, r, hsplit, -, hok, h1⟩ := scanT_cand try2 try2_cases l.length l w h
  exact cand_mem l.length l le_rfl u v w r hsplit hok h1

theorem scan3_sub (l w : List Char) (h : w ∈ scanAll try3 l) : w ∈ scanAll try1 l := by
  obtain ⟨u, v, r, hsplit, -, hok, h1⟩ := scanT_cand try3 try3_cases l.length l w h
  exact cand_mem l.length l le_rfl u v w r hsplit hok h1

theorem mem_insertAll {α : Type} [DecidableEq α] (s l : List α) (x : α) :
    x ∈ insertAll s l ↔ x ∈ s ∨ x ∈ l := by
  induction l generalizing s with
  | nil => simp [insertAll]
  | cons a l ih =>
    simp only [insertAll, List.foldl_cons] at *
    rw [ih (addSet s a), mem_addSet]
    simp only [List.mem_cons]
    tauto

/-- C10: the set of used variables extracted by the union of the three
patterns (member access, assignment source, await target) equals the set
extracted by the member-access pattern alone — the assignment and await
scans never contribute an identifier the first scan misses. -/
theorem claim_C10 (methodBody : List Char) :
    (findUsedVariablesInMethod methodBody).toFinset =
      (scanAll try1 methodBody).toFinset := by
  ext w
  simp only [List.mem_toFinset]
  unfold findUsedVariablesInMethod
  rw [mem_insertAll, mem_insertAll, mem_insertAll]
  simp only [List.not_mem_nil, false_or]
  constructor
  · rintro ((h1 | h2) | h3)
    · exact h1
    · exact scan2_sub methodBody w h2
    · exact scan3_sub methodBody w h3
  · intro h1
    exact Or.inl (Or.inl h1)
